import Mathlib

/-!
Shallow embedding of `src/btree.rs` (blbuford/sqlite-clone) and proofs about it.

Conventions:
* `K = usize` is the only key instantiation the crate uses, so nodes are embedded
  with `Nat` keys and a value type parameter `V`.
* Rust panics (`todo!()` on internal nodes, `Vec::insert` with an out-of-range
  index, `.unwrap()` on a missing cell) are modelled as `Option.none`; a normal
  return of `x` is `some x`.
* `Result<T, E>` is `Except E T` (`Ok ↦ .ok`, `Err ↦ .error`).
* The pager, cursor and row types live outside `src/` and are modelled from the
  spec where marked.
-/

namespace SqliteClone

instance {ε α : Type} [DecidableEq ε] [DecidableEq α] : DecidableEq (Except ε α) :=
  fun x y =>
  match x, y with
  | .error a, .error b => if h : a = b then .isTrue (by rw [h]) else .isFalse (by simp [h])
  | .ok a, .ok b => if h : a = b then .isTrue (by rw [h]) else .isFalse (by simp [h])
  | .error _, .ok _ => .isFalse (by simp)
  | .ok _, .error _ => .isFalse (by simp)

/-- The value of `usize::MAX` on the 64-bit target assumed throughout. -/
def USIZE_MAX : Nat := 2 ^ 64 - 1

/-- `NODE_SIZE` from `btree.rs`. -/
def NODE_SIZE : Nat := 4096

/-- `CELL_KEY_SIZE` from `btree.rs`. -/
def CELL_KEY_SIZE : Nat := 4

/-- `CELL_VALUE_SIZE` from `btree.rs`. -/
def CELL_VALUE_SIZE : Nat := 291

/-- `CELL_SIZE` from `btree.rs`. -/
def CELL_SIZE : Nat := CELL_VALUE_SIZE + CELL_KEY_SIZE

/-- Modelled from the spec: `Row` (declared in the crate root, outside `src/`) is a
fixed-size record whose primary identifier is `id`; the remaining payload is opaque
to the tree layer and collapsed to one field here. -/
structure Row where
  id : Nat
  payload : Nat
deriving DecidableEq

/-- `KeyValuePair<K, V>` from `btree.rs`, with `K = usize` embedded as `Nat`. -/
structure KeyValuePair (V : Type) where
  key : Nat
  value : V
deriving DecidableEq

/-- `NodeType<K, V>` from `btree.rs` (`K = usize`). -/
inductive NodeType (V : Type) where
  | Internal
  | Leaf (cells : List (KeyValuePair V))
deriving DecidableEq

/-- `Node<K, V>` from `btree.rs` (`K = usize`). -/
structure Node (V : Type) where
  is_root : Bool
  node_type : NodeType V
  parent_offset : Option Nat
  num_cells : Nat
  page_num : Nat
deriving DecidableEq

/-- The loop of `slice::binary_search_by` as called in `Node::find`:
`left` and `right` bracket the live window, `mid = left + (right - left) / 2`,
and the comparator result drives the narrowing exactly as in the Rust source.
`fuel` only bounds the iteration count so the recursion is structural; every
call keeps `right - left ≤ fuel`, so the `fuel = 0` fallback is never reached. -/
def bsLoop (keys : List Nat) (key : Nat) : Nat → Nat → Nat → Except Nat Nat
  | 0, left, _ => .error left
  | fuel + 1, left, right =>
    if left < right then
      if keys.getD (left + (right - left) / 2) 0 < key then
        bsLoop keys key fuel (left + (right - left) / 2 + 1) right
      else if key < keys.getD (left + (right - left) / 2) 0 then
        bsLoop keys key fuel left (left + (right - left) / 2)
      else .ok (left + (right - left) / 2)
    else .error left

/-- `cells.binary_search_by(|kv| kv.key.cmp(&key))` from `Node::find`, acting on
the projected key sequence (the comparator reads only `kv.key`). -/
def binarySearchKeys (keys : List Nat) (key : Nat) : Except Nat Nat :=
  bsLoop keys key keys.length 0 keys.length

/-- `Node::leaf()`. -/
def Node.leaf (V : Type) : Node V :=
  { is_root := false, node_type := .Leaf [], parent_offset := none,
    num_cells := 0, page_num := 0 }

/-- `Node::leaf_with_children(children)`: collect the iterator and set `num_cells`
to its length. -/
def Node.leaf_with_children {V : Type} (children : List (KeyValuePair V)) : Node V :=
  { is_root := false, node_type := .Leaf children, parent_offset := none,
    num_cells := children.length, page_num := 0 }

/-- `Node::internal()`. -/
def Node.internal (V : Type) : Node V :=
  { is_root := false, node_type := .Internal, parent_offset := none,
    num_cells := 0, page_num := 0 }

/-- `Node::get(cell_num)`: `cells.get(cell_num)` on a leaf, `None` on an internal
node. This `Option` is the source's own return type, not a panic marker. -/
def Node.get {V : Type} (n : Node V) (cell_num : Nat) : Option (KeyValuePair V) :=
  match n.node_type with
  | .Leaf cells => cells[cell_num]?
  | .Internal => none

/-- `Node::insert(cell_num, key, value)`. The leaf branch checks
`cells.len() >= 12` first and otherwise does `cells.insert` (which panics when
`cell_num > cells.len()`, hence the `none` arm) and `num_cells += 1`. The
internal-node arm is `todo!()`, i.e. a panic. -/
def Node.insert {V : Type} (n : Node V) (cell_num : Nat) (key : Nat) (value : V) :
    Option (Node V × Bool) :=
  match n.node_type with
  | .Leaf cells =>
    if 12 ≤ cells.length then some (n, false)
    else if cell_num ≤ cells.length then
      let cells' := cells.insertIdx cell_num ⟨key, value⟩
      some ({ n with node_type := .Leaf cells', num_cells := n.num_cells + 1 }, true)
    else none
  | .Internal => none

/-- `Node::find(key)`: on a leaf, first the capacity guard
`num_cells >= 12 → Err((usize::MAX, 0))`, then the binary search, tagging both
outcomes with `self.page_num`. The internal-node arm is `todo!()`. -/
def Node.find {V : Type} (n : Node V) (key : Nat) :
    Option (Except (Nat × Nat) (Nat × Nat)) :=
  match n.node_type with
  | .Leaf cells =>
    if 12 ≤ n.num_cells then some (.error (USIZE_MAX, 0))
    else
      match binarySearchKeys (cells.map (·.key)) key with
      | .ok i => some (.ok (n.page_num, i))
      | .error j => some (.error (n.page_num, j))
  | .Internal => none

/-- `Node::split(new_page_num)`: `cells.split_off(cells.len() / 2)` leaves the
lower half in `self` — without touching `self.num_cells`, exactly as in the
source — and the upper half becomes a fresh `leaf_with_children` stamped with
`new_page_num`. Returns `(self after the call, the new node)`; the internal-node
arm is `todo!()`. -/
def Node.split {V : Type} (n : Node V) (new_page_num : Nat) :
    Option (Node V × Node V) :=
  match n.node_type with
  | .Leaf cells =>
    let upper := cells.drop (cells.length / 2)
    let lower := cells.take (cells.length / 2)
    let new_node := { Node.leaf_with_children upper with page_num := new_page_num }
    some ({ n with node_type := .Leaf lower }, new_node)
  | .Internal => none

/-- Modelled from the spec: `Cursor` (in `src/cursor.rs`, outside the given
sources) is an immutable `(page index, cell index, end-of-table flag)` triple. -/
structure Cursor where
  page_num : Nat
  cell_num : Nat
  end_of_table : Bool
deriving DecidableEq

/-- Modelled from the spec: `Cursor::new` just packs the three fields. -/
def Cursor.new (page_num cell_num : Nat) (end_of_table : Bool) : Cursor :=
  { page_num := page_num, cell_num := cell_num, end_of_table := end_of_table }

/-- Modelled from the spec: the Page Store holds a dense range `[0, num_pages)`
of pages. -/
structure Pager where
  pages : List (Node Row)
deriving DecidableEq

/-- Modelled from the spec: `Pager::num_pages` reports the page count. -/
def Pager.num_pages (p : Pager) : Nat := p.pages.length

/-- Modelled from the spec: `Pager::get_page(n)` decodes the stored page, and a
page that does not exist yet decodes as a blank leaf carrying that page number
(`BTree::new` relies on this for page 0 of an empty store). -/
def Pager.get_page (p : Pager) (n : Nat) : Node Row :=
  p.pages.getD n { Node.leaf Row with page_num := n }

/-- Modelled from the spec: `Pager::commit_page` writes a node back keyed by its
`page_num`, appending when it is the next unused index of the dense range. -/
def Pager.commit_page (p : Pager) (node : Node Row) : Pager :=
  if node.page_num < p.pages.length then ⟨p.pages.set node.page_num node⟩
  else if node.page_num = p.pages.length then ⟨p.pages ++ [node]⟩
  else p

/-- `BTree` from `btree.rs`: the cached root plus the pager. -/
structure BTree where
  root : Node Row
  pager : Pager
deriving DecidableEq

/-- `BTree::new(pager)`. -/
def BTree.new (pager : Pager) : BTree :=
  if pager.num_pages = 0 then
    let root_node := { pager.get_page 0 with is_root := true }
    let pager' := pager.commit_page root_node
    { root := root_node, pager := pager' }
  else
    { root := pager.get_page 0, pager := pager }

/-- `BTree::get(page_num, cell_num)`; the `.unwrap()` panic on a missing cell is
`none`. -/
def BTree.get (t : BTree) (page_num cell_num : Nat) : Option Row :=
  ((t.pager.get_page page_num).get cell_num).map (·.value)

/-- `BTree::insert(cursor, value)`: the overflow branch (`num_cells >= 12`)
calls `split` on its local copy, builds a throwaway `Node::internal()`, and
returns `false` without committing anything; the other branch does the leaf
insert with `value.id` as key, commits on success and refreshes the cached root
when the mutated node is the root. `none` models a panic inside
`Node::split`/`Node::insert`. -/
def BTree.insert (t : BTree) (cursor : Cursor) (value : Row) : Option (BTree × Bool) :=
  let node := t.pager.get_page cursor.page_num
  if 12 ≤ node.num_cells then
    match node.split t.pager.num_pages with
    | none => none
    | some _ => some (t, false)
  else
    match node.insert cursor.cell_num value.id value with
    | none => none
    | some (node', flag) =>
      if flag then
        some ({ root := if node'.is_root then node' else t.root,
                pager := t.pager.commit_page node' }, true)
      else
        some (t, false)

/-- `BTree::find(key)`: delegate to the root node and wrap both outcomes in a
cursor whose end-of-table flag is
`pager.num_pages() == page_num && cell_num >= 12`. -/
def BTree.find (t : BTree) (key : Nat) : Option (Except Cursor Cursor) :=
  match t.root.find key with
  | none => none
  | some (.ok (page_num, cell_num)) =>
    some (.ok (Cursor.new page_num cell_num
      ((t.pager.num_pages == page_num) && decide (12 ≤ cell_num))))
  | some (.error (page_num, insert_cell_num)) =>
    some (.error (Cursor.new page_num insert_cell_num
      ((t.pager.num_pages == page_num) && decide (12 ≤ insert_cell_num))))

/-- The cell list of a node (empty for an internal node). -/
def Node.cellsOf {V : Type} (n : Node V) : List (KeyValuePair V) :=
  match n.node_type with
  | .Leaf cells => cells
  | .Internal => []

/-- The key sequence of a node's cells. -/
def Node.keysOf {V : Type} (n : Node V) : List Nat :=
  n.cellsOf.map (·.key)

/-- Whether the node is a leaf. -/
def Node.isLeaf {V : Type} (n : Node V) : Bool :=
  match n.node_type with
  | .Leaf _ => true
  | .Internal => false

/-- Well-formed sorted leaf: a leaf whose `num_cells` matches its cell count and
whose keys strictly increase (invariant I1 plus the `num_cells` field contract). -/
def Node.sortedLeaf {V : Type} (n : Node V) : Prop :=
  n.isLeaf = true ∧ n.num_cells = n.cellsOf.length ∧ n.keysOf.Pairwise (· < ·)

instance {V : Type} (n : Node V) : Decidable n.sortedLeaf := by
  unfold Node.sortedLeaf
  infer_instance

/-! ## Binary-search correctness -/

/-- In a strictly sorted key list, earlier entries are smaller. -/
theorem sorted_getD_lt {keys : List Nat} (hs : keys.Pairwise (· < ·))
    {i j : Nat} (hij : i < j) (hj : j < keys.length) :
    keys.getD i 0 < keys.getD j 0 := by
  rw [List.getD_eq_getElem _ _ (lt_trans hij hj), List.getD_eq_getElem _ _ hj]
  exact List.pairwise_iff_getElem.mp hs i j (lt_trans hij hj) hj hij

/-- Loop invariant of `bsLoop` on a strictly sorted key list: a success hands
back an in-range index holding the key, and a miss hands back the unique index
splitting the list into keys below and keys above the probe. -/
theorem bsLoop_spec (keys : List Nat) (key : Nat) :
    ∀ fuel left right,
      keys.Pairwise (· < ·) →
      left ≤ right → right ≤ keys.length → right - left ≤ fuel →
      (∀ i, i < left → keys.getD i 0 < key) →
      (∀ i, right ≤ i → i < keys.length → key < keys.getD i 0) →
      (∀ m, bsLoop keys key fuel left right = .ok m →
        m < keys.length ∧ keys.getD m 0 = key) ∧
      (∀ j, bsLoop keys key fuel left right = .error j →
        j ≤ keys.length ∧ (∀ i, i < j → keys.getD i 0 < key) ∧
        (∀ i, j ≤ i → i < keys.length → key < keys.getD i 0)) := by
  intro fuel
  induction fuel with
  | zero =>
    intro left right hs hlr hrlen hfuel hlo hhi
    constructor
    · intro m hm
      exact absurd hm (by rw [bsLoop]; intro h; cases h)
    · intro j hj
      rw [bsLoop] at hj
      cases hj
      exact ⟨by omega, hlo, fun i hji hil => hhi i (by omega) hil⟩
  | succ fuel ih =>
    intro left right hs hlr hrlen hfuel hlo hhi
    by_cases hlt : left < right
    · rw [bsLoop, if_pos hlt]
      have hmid₁ : left ≤ left + (right - left) / 2 := by omega
      have hmid₂ : left + (right - left) / 2 < right := by omega
      generalize hmid : left + (right - left) / 2 = mid at hmid₁ hmid₂ ⊢
      have hmidlen : mid < keys.length := by omega
      by_cases hless : keys.getD mid 0 < key
      · rw [if_pos hless]
        have hlo' : ∀ i, i < mid + 1 → keys.getD i 0 < key := by
          intro i hi
          rcases lt_or_ge i left with h | h
          · exact hlo i h
          · rcases lt_or_eq_of_le (Nat.lt_succ_iff.mp hi) with h' | h'
            · exact lt_trans (sorted_getD_lt hs h' hmidlen) hless
            · rw [h']; exact hless
        exact ih (mid + 1) right hs (by omega) hrlen (by omega) hlo' hhi
      · rw [if_neg hless]
        by_cases hgt : key < keys.getD mid 0
        · rw [if_pos hgt]
          have hhi' : ∀ i, mid ≤ i → i < keys.length → key < keys.getD i 0 := by
            intro i hi hil
            rcases lt_or_eq_of_le hi with h | h
            · exact lt_trans hgt (sorted_getD_lt hs h hil)
            · rw [← h]; exact hgt
          exact ih left mid hs (by omega) (by omega) (by omega) hlo hhi'
        · rw [if_neg hgt]
          have heq : keys.getD mid 0 = key := by omega
          constructor
          · intro m hm
            cases hm
            exact ⟨hmidlen, heq⟩
          · intro j hj
            cases hj
    · rw [bsLoop, if_neg hlt]
      constructor
      · intro m hm
        cases hm
      · intro j hj
        cases hj
        exact ⟨by omega, hlo, fun i hji hil => hhi i (by omega) hil⟩

/-- On a strictly sorted key list, a key present at index `i` is found there. -/
theorem binarySearchKeys_found {keys : List Nat} {key : Nat} {i : Nat}
    (hs : keys.Pairwise (· < ·)) (hi : i < keys.length)
    (hk : keys.getD i 0 = key) :
    binarySearchKeys keys key = .ok i := by
  have hspec := bsLoop_spec keys key keys.length 0 keys.length hs
    (Nat.zero_le _) (le_refl _) (by omega)
    (fun i hi => absurd hi (Nat.not_lt_zero _))
    (fun i hle hlt => absurd hlt (not_lt_of_ge hle))
  rcases hres : bsLoop keys key keys.length 0 keys.length with j | m
  · rcases (hspec.2 j hres).2 with ⟨hbelow, habove⟩
    rcases lt_or_ge i j with h | h
    · exact absurd hk (ne_of_lt (hbelow i h))
    · exact absurd hk.symm (ne_of_lt (habove i h hi))
  · rcases hspec.1 m hres with ⟨hmlen, hmk⟩
    have : m = i := by
      rcases Nat.lt_trichotomy m i with h | h | h
      · exact absurd (hmk.trans hk.symm) (ne_of_lt (sorted_getD_lt hs h hi))
      · exact h
      · exact absurd (hk.trans hmk.symm) (ne_of_lt (sorted_getD_lt hs h hmlen))
    rw [binarySearchKeys, hres, this]

/-- On a strictly sorted key list, a search success returns an in-range index
actually holding the key. -/
theorem binarySearchKeys_ok {keys : List Nat} {key : Nat} {m : Nat}
    (hs : keys.Pairwise (· < ·)) (hm : binarySearchKeys keys key = .ok m) :
    m < keys.length ∧ keys.getD m 0 = key := by
  have hspec := bsLoop_spec keys key keys.length 0 keys.length hs
    (Nat.zero_le _) (le_refl _) (by omega)
    (fun i hi => absurd hi (Nat.not_lt_zero _))
    (fun i hle hlt => absurd hlt (not_lt_of_ge hle))
  exact hspec.1 m hm

/-- On a strictly sorted key list, a miss returns the unique order-preserving
insertion index: everything before it is below the key, everything from it on is
above. -/
theorem binarySearchKeys_miss {keys : List Nat} {key : Nat} {j : Nat}
    (hs : keys.Pairwise (· < ·))
    (hj : binarySearchKeys keys key = .error j) :
    j ≤ keys.length ∧ (∀ i, i < j → keys.getD i 0 < key) ∧
      (∀ i, j ≤ i → i < keys.length → key < keys.getD i 0) := by
  have hspec := bsLoop_spec keys key keys.length 0 keys.length hs
    (Nat.zero_le _) (le_refl _) (by omega)
    (fun i hi => absurd hi (Nat.not_lt_zero _))
    (fun i hle hlt => absurd hlt (not_lt_of_ge hle))
  exact hspec.2 j hj

/-! ## Order-preserving insertion -/

/-- `insertIdx` at an in-range index is take-append-drop. -/
theorem insertIdx_eq_take_append {α : Type} (l : List α) (n : Nat) (a : α)
    (h : n ≤ l.length) :
    l.insertIdx n a = l.take n ++ a :: l.drop n := by
  induction l generalizing n with
  | nil =>
    have hn : n = 0 := by simpa using h
    subst hn
    rfl
  | cons x xs ih =>
    cases n with
    | zero => rfl
    | succ n =>
      simp only [List.insertIdx_succ_cons, List.take_succ_cons, List.drop_succ_cons,
        List.cons_append, List.cons.injEq, true_and]
      exact ih n (by simpa using h)

/-- `map` commutes with `insertIdx`. -/
theorem map_insertIdx {α β : Type} (f : α → β) (l : List α) (n : Nat) (a : α) :
    (l.insertIdx n a).map f = (l.map f).insertIdx n (f a) := by
  induction l generalizing n with
  | nil => cases n <;> rfl
  | cons x xs ih =>
    cases n with
    | zero => rfl
    | succ n => simp only [List.insertIdx_succ_cons, List.map_cons, ih]

/-- Inserting a key between the strictly smaller prefix and the strictly larger
suffix keeps the key list strictly sorted. -/
theorem pairwise_lt_insertIdx {keys : List Nat} {key j : Nat}
    (hs : keys.Pairwise (· < ·)) (hj : j ≤ keys.length)
    (hbelow : ∀ i, i < j → keys.getD i 0 < key)
    (habove : ∀ i, j ≤ i → i < keys.length → key < keys.getD i 0) :
    (keys.insertIdx j key).Pairwise (· < ·) := by
  rw [insertIdx_eq_take_append keys j key hj]
  have htake : ∀ a ∈ keys.take j, a < key := by
    intro a ha
    rcases List.mem_iff_getElem.mp ha with ⟨i, hi, hval⟩
    have hij : i < j ∧ i < keys.length := by
      rw [List.length_take] at hi
      omega
    rw [List.getElem_take] at hval
    rw [← hval, ← List.getD_eq_getElem keys 0 hij.2]
    exact hbelow i hij.1
  have hdrop : ∀ b ∈ keys.drop j, key < b := by
    intro b hb
    rcases List.mem_iff_getElem.mp hb with ⟨m, hm, hval⟩
    have hmlen : j + m < keys.length := by
      rw [List.length_drop] at hm
      omega
    rw [List.getElem_drop] at hval
    rw [← hval, ← List.getD_eq_getElem keys 0 hmlen]
    exact habove (j + m) (by omega) hmlen
  rw [List.pairwise_append]
  refine ⟨List.Pairwise.sublist (List.take_sublist j keys) hs, ?_, ?_⟩
  · rw [List.pairwise_cons]
    exact ⟨hdrop, List.Pairwise.sublist (List.drop_sublist j keys) hs⟩
  · intro a ha b hb
    rcases List.mem_cons.mp hb with rfl | hb'
    · exact htake a ha
    · exact lt_trans (htake a ha) (hdrop b hb')

/-- The freshly inserted element is read back at its insertion index. -/
theorem getElem?_insertIdx_self {α : Type} (l : List α) (n : Nat) (a : α)
    (h : n ≤ l.length) : (l.insertIdx n a)[n]? = some a := by
  have hlen : (l.insertIdx n a).length = l.length + 1 :=
    List.length_insertIdx n l h
  rw [List.getElem?_eq_getElem (by omega)]
  rw [List.getElem_insertIdx_self l a n h]

example : (Node.leaf Nat).sortedLeaf := by decide

/-! ## Concrete nodes used as inputs -/

/-- A three-cell leaf with keys 1, 2, 3. -/
def node3 : Node Nat :=
  { is_root := false, node_type := .Leaf [⟨1, 10⟩, ⟨2, 20⟩, ⟨3, 30⟩],
    parent_offset := none, num_cells := 3, page_num := 0 }

/-- A full twelve-cell leaf with keys 1..12. -/
def node12 : Node Nat :=
  { is_root := false,
    node_type := .Leaf ((List.range 12).map fun i => ⟨i + 1, i⟩),
    parent_offset := none, num_cells := 12, page_num := 0 }

/-! ## Claims about `Node` -/

/-- C1 counterexample: on the three-cell leaf, the claim predicts that `self`
retains `⌈3/2⌉ = 2` cells and the new node `⌊3/2⌋ = 1`; the code retains 1 and
moves 2 (`split_off(len / 2)` keeps only the shorter lower half in `self`). -/
theorem c1_counterexample :
    (node3.split 7).map (fun r => (r.1.cellsOf.length, r.2.cellsOf.length)) =
      some (1, 2) ∧ ((1 : Nat), (2 : Nat)) ≠ ((2 : Nat), (1 : Nat)) := by
  exact ⟨by decide, by decide⟩

/-- C1 (amended): after `split(new_page_num)` on a leaf of `n` cells (`n` odd),
`self` retains `⌊n/2⌋` cells — the extra cell goes to the returned new node,
which holds `⌈n/2⌉` cells — and `self`'s cells are a strict prefix of the
original sequence. -/
theorem c1_split_odd {V : Type} (n : Node V) (cells : List (KeyValuePair V))
    (new_page_num : Nat) (hleaf : n.node_type = .Leaf cells)
    (hodd : cells.length % 2 = 1) :
    ∃ lo hi, n.split new_page_num = some (lo, hi) ∧
      lo.cellsOf = cells.take (cells.length / 2) ∧
      hi.cellsOf = cells.drop (cells.length / 2) ∧
      lo.cellsOf.length = cells.length / 2 ∧
      hi.cellsOf.length = (cells.length + 1) / 2 ∧
      lo.cellsOf ++ hi.cellsOf = cells ∧
      lo.cellsOf ≠ cells := by
  refine ⟨{ n with node_type := .Leaf (cells.take (cells.length / 2)) },
    { Node.leaf_with_children (cells.drop (cells.length / 2)) with
        page_num := new_page_num }, ?_, ?_, ?_, ?_, ?_, ?_, ?_⟩
  · simp only [Node.split, hleaf]
  · simp [Node.cellsOf]
  · simp [Node.cellsOf, Node.leaf_with_children]
  · simp only [Node.cellsOf, List.length_take]
    omega
  · simp only [Node.cellsOf, Node.leaf_with_children, List.length_drop]
    omega
  · simp only [Node.cellsOf, Node.leaf_with_children]
    exact List.take_append_drop _ _
  · simp only [Node.cellsOf]
    intro heq
    have := congrArg List.length heq
    rw [List.length_take] at this
    omega

/-- C1 witness: the amended statement evaluated on the three-cell leaf. -/
theorem c1_split_odd_witness :
    ∃ lo hi, node3.split 7 = some (lo, hi) ∧
      lo.cellsOf = ([⟨1, 10⟩, ⟨2, 20⟩, ⟨3, 30⟩] : List (KeyValuePair Nat)).take 1 ∧
      hi.cellsOf = ([⟨1, 10⟩, ⟨2, 20⟩, ⟨3, 30⟩] : List (KeyValuePair Nat)).drop 1 ∧
      lo.cellsOf.length = 1 ∧ hi.cellsOf.length = 2 ∧
      lo.cellsOf ++ hi.cellsOf = [⟨1, 10⟩, ⟨2, 20⟩, ⟨3, 30⟩] ∧
      lo.cellsOf ≠ [⟨1, 10⟩, ⟨2, 20⟩, ⟨3, 30⟩] :=
  c1_split_odd node3 [⟨1, 10⟩, ⟨2, 20⟩, ⟨3, 30⟩] 7 rfl (by decide)

/-- C2: `Node::split` breaks the `num_cells = cells.len()` contract on the
receiver: splitting the full 12-cell leaf leaves `self` with 6 cells but
`num_cells` still 12, because the source never updates `self.num_cells`. -/
theorem c2_split_stale_num_cells :
    (node12.split 1).map (fun r => (r.1.num_cells, r.1.cellsOf.length)) =
      some (12, 6) ∧ (12 : Nat) ≠ 6 := by
  exact ⟨by decide, by decide⟩

/-- C3 counterexample: the full 12-cell leaf holds key 5 at index 4, yet
`Node::find(5)` returns the capacity sentinel `Err((usize::MAX, 0))` instead of
`Ok((page_num, 4))`, because the guard `num_cells >= 12` fires before the
search. -/
theorem c3_counterexample :
    node12.find 5 = some (.error (USIZE_MAX, 0)) ∧
      some (Except.error (USIZE_MAX, 0) : Except (Nat × Nat) (Nat × Nat)) ≠
        some (Except.ok (0, 4)) := by
  exact ⟨by decide, by decide⟩

/-- C3 (amended): for a leaf holding fewer than 12 cells (with `num_cells`
matching and cells strictly sorted by key, invariant I1) that contains key `k`
at index `i`, `Node::find(k)` returns `Ok((page_num, i))`. -/
theorem c3_find_hit {V : Type} (n : Node V) (cells : List (KeyValuePair V))
    (k i : Nat)
    (hleaf : n.node_type = .Leaf cells)
    (hnum : n.num_cells = cells.length)
    (hsorted : (cells.map (·.key)).Pairwise (· < ·))
    (hlen : cells.length < 12)
    (hi : i < cells.length)
    (hk : (cells.map (·.key)).getD i 0 = k) :
    n.find k = some (.ok (n.page_num, i)) := by
  have hbs := binarySearchKeys_found hsorted (by simpa using hi) hk
  simp only [Node.find, hleaf]
  rw [if_neg (by omega), hbs]

/-- C3 witness: the amended statement evaluated on the three-cell leaf. -/
theorem c3_find_hit_witness : node3.find 2 = some (.ok (0, 1)) :=
  c3_find_hit node3 [⟨1, 10⟩, ⟨2, 20⟩, ⟨3, 30⟩] 2 1 rfl rfl (by decide)
    (by decide) (by decide) (by decide)

/-- C7: a leaf insert at a valid index succeeds exactly when the leaf held
fewer than 12 cells; on success the pair lands at `cell_num` with the suffix
shifted right and `num_cells` incremented; on failure nothing changes. -/
theorem c7_insert_spec {V : Type} (n : Node V) (cells : List (KeyValuePair V))
    (cell_num k : Nat) (v : V)
    (hleaf : n.node_type = .Leaf cells) (hidx : cell_num ≤ cells.length) :
    ((∃ n', n.insert cell_num k v = some (n', true)) ↔ cells.length < 12) ∧
    (cells.length < 12 →
      n.insert cell_num k v =
        some ({ n with
          node_type := .Leaf (cells.take cell_num ++ ⟨k, v⟩ :: cells.drop cell_num),
          num_cells := n.num_cells + 1 }, true)) ∧
    (12 ≤ cells.length → n.insert cell_num k v = some (n, false)) := by
  by_cases h12 : 12 ≤ cells.length
  · have hfail : n.insert cell_num k v = some (n, false) := by
      simp only [Node.insert, hleaf]
      rw [if_pos h12]
    refine ⟨?_, fun h => absurd h (by omega), fun _ => hfail⟩
    constructor
    · rintro ⟨n', hn'⟩
      rw [hfail] at hn'
      cases hn'
    · intro h
      exact absurd h (by omega)
  · have hok : n.insert cell_num k v =
        some ({ n with
          node_type := .Leaf (cells.take cell_num ++ ⟨k, v⟩ :: cells.drop cell_num),
          num_cells := n.num_cells + 1 }, true) := by
      simp only [Node.insert, hleaf]
      rw [if_neg h12, if_pos hidx, insertIdx_eq_take_append cells cell_num _ hidx]
    refine ⟨?_, fun _ => hok, fun h => absurd h h12⟩
    constructor
    · intro _
      omega
    · intro _
      exact ⟨_, hok⟩

/-- C7 witness: inserting key 10 at index 1 of the three-cell leaf. -/
theorem c7_insert_spec_witness :
    ((∃ n', node3.insert 1 10 99 = some (n', true)) ↔ (3 : Nat) < 12) ∧
    ((3 : Nat) < 12 →
      node3.insert 1 10 99 =
        some ({ node3 with
          node_type := .Leaf
            (([⟨1, 10⟩, ⟨2, 20⟩, ⟨3, 30⟩] : List (KeyValuePair Nat)).take 1 ++
              ⟨10, 99⟩ :: ([⟨1, 10⟩, ⟨2, 20⟩, ⟨3, 30⟩] : List (KeyValuePair Nat)).drop 1),
          num_cells := node3.num_cells + 1 }, true)) ∧
    (12 ≤ (3 : Nat) → node3.insert 1 10 99 = some (node3, false)) :=
  c7_insert_spec node3 [⟨1, 10⟩, ⟨2, 20⟩, ⟨3, 30⟩] 1 10 99 rfl (by decide)

/-- C8: splitting a full 12-cell leaf yields the lower six cells in `self` and
the upper six in the new node (stamped with the new page number), and their
concatenation restores the original ordered sequence. -/
theorem c8_split_full {V : Type} (n : Node V) (cells : List (KeyValuePair V))
    (new_page_num : Nat) (hleaf : n.node_type = .Leaf cells)
    (hfull : cells.length = 12) :
    ∃ lo hi, n.split new_page_num = some (lo, hi) ∧
      lo.node_type = .Leaf (cells.take 6) ∧
      hi.node_type = .Leaf (cells.drop 6) ∧
      lo.cellsOf.length = 6 ∧ hi.cellsOf.length = 6 ∧
      lo.cellsOf ++ hi.cellsOf = cells ∧ hi.page_num = new_page_num := by
  have h6 : cells.length / 2 = 6 := by omega
  refine ⟨{ n with node_type := .Leaf (cells.take (cells.length / 2)) },
    { Node.leaf_with_children (cells.drop (cells.length / 2)) with
        page_num := new_page_num }, ?_, ?_, ?_, ?_, ?_, ?_, ?_⟩
  · simp only [Node.split, hleaf]
  · simp [Node.cellsOf, h6]
  · simp [Node.cellsOf, Node.leaf_with_children, h6]
  · simp only [Node.cellsOf, List.length_take]
    omega
  · simp only [Node.cellsOf, Node.leaf_with_children, List.length_drop]
    omega
  · simp only [Node.cellsOf, Node.leaf_with_children]
    exact List.take_append_drop _ _
  · simp [Node.leaf_with_children]

/-- C8 witness: the statement evaluated on the full 12-cell leaf. -/
theorem c8_split_full_witness :
    ∃ lo hi, node12.split 3 = some (lo, hi) ∧
      lo.node_type = .Leaf (((List.range 12).map fun i =>
        (⟨i + 1, i⟩ : KeyValuePair Nat)).take 6) ∧
      hi.node_type = .Leaf (((List.range 12).map fun i =>
        (⟨i + 1, i⟩ : KeyValuePair Nat)).drop 6) ∧
      lo.cellsOf.length = 6 ∧ hi.cellsOf.length = 6 ∧
      lo.cellsOf ++ hi.cellsOf = (List.range 12).map (fun i => ⟨i + 1, i⟩) ∧
      hi.page_num = 3 :=
  c8_split_full node12 ((List.range 12).map fun i => ⟨i + 1, i⟩) 3 rfl (by decide)

/-- C10: `Node::get` is total — on a leaf it returns the cell at `cell_num`
when that index is in range and `none` otherwise, and on an internal node it
returns `none`; no input makes it panic. -/
theorem c10_get_total {V : Type} (n : Node V) (cell_num : Nat) :
    (∀ cells, n.node_type = .Leaf cells →
      (∀ h : cell_num < cells.length,
        n.get cell_num = some (cells.get ⟨cell_num, h⟩)) ∧
      (cells.length ≤ cell_num → n.get cell_num = none)) ∧
    (n.node_type = .Internal → n.get cell_num = none) := by
  constructor
  · intro cells hleaf
    constructor
    · intro h
      simp [Node.get, hleaf, List.getElem?_eq_getElem h]
    · intro h
      simp [Node.get, hleaf, List.getElem?_eq_none h]
  · intro hint
    simp [Node.get, hint]

/-- C10 witness: in-range and out-of-range reads of the three-cell leaf, and a
read of an internal node. -/
theorem c10_get_total_witness :
    node3.get 1 = some ⟨2, 20⟩ ∧ node3.get 5 = none ∧
      (Node.internal Nat).get 0 = none := by
  refine ⟨?_, ?_, ?_⟩
  · exact ((c10_get_total node3 1).1 _ rfl).1 (by decide)
  · exact ((c10_get_total node3 5).1 _ rfl).2 (by decide)
  · exact (c10_get_total (Node.internal Nat) 0).2 rfl

/-! ## The find-then-insert discipline on a single leaf -/

/-- A leaf node's `sortedLeaf` invariant, phrased on its cell list. -/
theorem sortedLeaf_leaf {V : Type} {n : Node V} {cells : List (KeyValuePair V)}
    (hcells : n.node_type = .Leaf cells) :
    n.sortedLeaf ↔
      n.num_cells = cells.length ∧ (cells.map (·.key)).Pairwise (· < ·) := by
  simp [Node.sortedLeaf, Node.isLeaf, Node.keysOf, Node.cellsOf, hcells]

/-- One step of the discipline the claim describes: probe the node with
`Node::find`; a hit inserts nothing, while a miss (the capacity sentinel
included) passes the returned insertion index straight to `Node::insert`.
`none` is a panic of either call. -/
def findThenInsert {V : Type} (n : Node V) (k : Nat) (v : V) : Option (Node V) :=
  match n.find k with
  | none => none
  | some (.ok _) => some n
  | some (.error (_, j)) =>
    match n.insert j k v with
    | none => none
    | some (n', _) => some n'

/-- A whole sequence of find-then-insert operations, applied left to right. -/
def runInserts {V : Type} (n : Node V) : List (Nat × V) → Option (Node V)
  | [] => some n
  | (k, v) :: rest =>
    match findThenInsert n k v with
    | none => none
    | some n' => runInserts n' rest

/-- A find-then-insert step preserves the sorted-leaf invariant. -/
theorem findThenInsert_sortedLeaf {V : Type} {n n' : Node V} {k : Nat} {v : V}
    (hwf : n.sortedLeaf) (h : findThenInsert n k v = some n') :
    n'.sortedLeaf := by
  cases hcells : n.node_type with
  | Internal =>
    exfalso
    have hl := hwf.1
    simp [Node.isLeaf, hcells] at hl
  | Leaf cells =>
    obtain ⟨hnum, hsorted⟩ := (sortedLeaf_leaf hcells).mp hwf
    simp only [findThenInsert, Node.find, hcells] at h
    by_cases h12 : 12 ≤ n.num_cells
    · rw [if_pos h12] at h
      simp only [Node.insert, hcells] at h
      rw [if_pos (show 12 ≤ cells.length by omega)] at h
      cases h
      exact hwf
    · rw [if_neg h12] at h
      rcases hbs : binarySearchKeys (cells.map (·.key)) k with j | m
      · simp only [hbs] at h
        obtain ⟨hjlen, hbelow, habove⟩ := binarySearchKeys_miss hsorted hbs
        have hjcells : j ≤ cells.length := by
          rw [List.length_map] at hjlen
          exact hjlen
        simp only [Node.insert, hcells] at h
        rw [if_neg (show ¬ 12 ≤ cells.length by omega), if_pos hjcells] at h
        cases h
        refine (sortedLeaf_leaf rfl).mpr ⟨?_, ?_⟩
        · have hlen' : (cells.insertIdx j (⟨k, v⟩ : KeyValuePair V)).length =
              cells.length + 1 := List.length_insertIdx j cells hjcells
          simp only [hlen']
          omega
        · rw [map_insertIdx]
          exact pairwise_lt_insertIdx hsorted hjlen hbelow habove
      · simp only [hbs] at h
        cases h
        exact hwf

/-- C9: from any well-formed strictly-sorted leaf, every sequence of
find-then-insert operations — each insertion index coming from a `Node::find`
miss on the leaf's current contents — keeps the cells strictly increasing by
key (no duplicates). Since the run is an iterated single step, every
intermediate leaf of the sequence, i.e. the state after every operation,
satisfies the invariant as well. -/
theorem c9_ordering {V : Type} (n : Node V) (ops : List (Nat × V)) (n' : Node V)
    (hwf : n.sortedLeaf) (hrun : runInserts n ops = some n') :
    n'.sortedLeaf := by
  induction ops generalizing n with
  | nil =>
    simp only [runInserts] at hrun
    cases hrun
    exact hwf
  | cons op rest ih =>
    obtain ⟨k, v⟩ := op
    simp only [runInserts] at hrun
    rcases hstep : findThenInsert n k v with _ | m
    · rw [hstep] at hrun
      cases hrun
    · simp only [hstep] at hrun
      exact ih m (findThenInsert_sortedLeaf hwf hstep) hrun

/-- C9 witness: a run over the empty leaf with keys 5, 2, 8 and a duplicate 5;
the resulting leaf is sorted. -/
theorem c9_ordering_witness :
    (Node.leaf_with_children [⟨2, 20⟩, ⟨5, 50⟩, ⟨8, 80⟩] : Node Nat).sortedLeaf :=
  c9_ordering (Node.leaf Nat) [(5, 50), (2, 20), (8, 80), (5, 99)] _
    (by decide) (by decide)

/-! ## Claims about `BTree` -/

/-- C6: when the cursor's target page holds a leaf with at least 12 cells,
`BTree::insert` returns `false` and the tree — cached root and page store
alike — is exactly as before the call: the overflow branch commits nothing. -/
theorem c6_overflow_atomic (t : BTree) (c : Cursor) (v : Row)
    (cells : List (KeyValuePair Row))
    (hleaf : (t.pager.get_page c.page_num).node_type = .Leaf cells)
    (hfull : 12 ≤ (t.pager.get_page c.page_num).num_cells) :
    t.insert c v = some (t, false) := by
  simp only [BTree.insert]
  rw [if_pos hfull]
  simp only [Node.split, hleaf]

/-- The full root leaf used for the C6 witness: keys 1..12 at page 0. -/
def fullRoot : Node Row :=
  { is_root := true,
    node_type := .Leaf ((List.range 12).map fun i => ⟨i + 1, ⟨i + 1, 0⟩⟩),
    parent_offset := none, num_cells := 12, page_num := 0 }

/-- A tree whose root page holds `fullRoot`. -/
def treeFull : BTree := { root := fullRoot, pager := { pages := [fullRoot] } }

/-- C6 witness: inserting into the full root leaf returns the tree unchanged
with a `false` flag. -/
theorem c6_overflow_atomic_witness :
    treeFull.insert (Cursor.new 0 0 false) ⟨13, 0⟩ = some (treeFull, false) :=
  c6_overflow_atomic treeFull (Cursor.new 0 0 false) ⟨13, 0⟩
    ((List.range 12).map fun i => ⟨i + 1, ⟨i + 1, 0⟩⟩) rfl (by decide)

/-! ## The spec's insertion scenarios -/

/-- The row inserted for key `k` in the scenarios. -/
def rowOf (k : Nat) : Row := { id := k, payload := 0 }

/-- Tree-level find-then-insert of the scenarios: `BTree::find(k)`, and on a
miss `BTree::insert` at the returned cursor with a row whose id is `k`; a hit
inserts nothing. -/
def insertViaFind (t : BTree) (k : Nat) : Option (BTree × Bool) :=
  match t.find k with
  | none => none
  | some (.ok _) => some (t, false)
  | some (.error c) => t.insert c (rowOf k)

/-- Insert each key in order via find, requiring every insert to succeed. -/
def fillTree (t : BTree) : List Nat → Option BTree
  | [] => some t
  | k :: rest =>
    match insertViaFind t k with
    | some (t', true) => fillTree t' rest
    | _ => none

/-- Scenario 1 of the spec: a fresh store, then keys 1..12 inserted ascending,
filling the single root leaf exactly. -/
def tree12 : Option BTree :=
  fillTree (BTree.new { pages := [] }) ((List.range 12).map (· + 1))

/-- Eleven ascending keys 1..11 into a fresh store: one slot left in the root. -/
def tree11 : Option BTree :=
  fillTree (BTree.new { pages := [] }) ((List.range 11).map (· + 1))

/-- C5 counterexample: all twelve inserts succeed, but `find(13)` on the filled
tree returns the capacity-sentinel `Err` cursor `(usize::MAX, 0, false)` — its
cell index is 0, not 12, and its end-of-table flag is `false`, not `true` —
because `Node::find` refuses a full leaf before searching and
`pager.num_pages() == usize::MAX` never holds. -/
theorem c5_counterexample :
    (tree12.bind fun t => t.find 13) =
      some (.error (Cursor.new USIZE_MAX 0 false)) ∧
      (Cursor.new USIZE_MAX 0 false).cell_num ≠ 12 := by
  exact ⟨by decide, by decide⟩

/-- C5 (amended): on the tree filled with keys 1..12, every lookup — the stored
keys 1..12 just like 13 — hits the full-leaf guard of `Node::find` and returns
the sentinel `Err` cursor `(usize::MAX, 0, false)`; in particular no `find(k)`
returns `Ok`, and `find(13)` carries cell index 0 with `end_of_table = false`
rather than index 12 with `end_of_table = true`. -/
theorem c5_full_leaf_sentinel (k : Nat) (h1 : 1 ≤ k) (h13 : k ≤ 13) :
    (tree12.bind fun t => t.find k) =
      some (.error (Cursor.new USIZE_MAX 0 false)) := by
  interval_cases k <;> decide

/-- C5 witness: the amended statement at key 5. -/
theorem c5_full_leaf_sentinel_witness :
    (tree12.bind fun t => t.find 5) =
      some (.error (Cursor.new USIZE_MAX 0 false)) :=
  c5_full_leaf_sentinel 5 (by decide) (by decide)

/-- C4 counterexample: on the tree holding keys 1..11, `find(12)` misses,
`insert` of the row with id 12 succeeds and brings the leaf to exactly 12
cells — and then the subsequent `find(12)` returns the sentinel `Err` cursor
instead of the `Ok` the claim promises. -/
theorem c4_counterexample :
    (tree11.bind fun t =>
      match t.find 12 with
      | some (.error c) =>
        match t.insert c (rowOf 12) with
        | some (t', true) => some (t'.find 12)
        | _ => none
      | _ => none) =
      some (some (.error (Cursor.new USIZE_MAX 0 false))) := by
  decide

/-- C4 (amended): for a key `k` absent from the well-formed single-leaf tree,
once `find(k)` returns a miss cursor and `insert` of a row with id `k` there
succeeds, a subsequent `find(k)` returns `Ok` at the same page and `get` at
that cursor returns the exact row inserted — provided the insert leaves the
leaf below 12 cells (at exactly 12 the capacity sentinel of `Node::find`
makes the subsequent `find` return `Err`, refuting the original claim). -/
theorem c4_round_trip (t : BTree) (k : Nat) (row : Row)
    (cells : List (KeyValuePair Row))
    (hleaf : t.root.node_type = .Leaf cells)
    (hnum : t.root.num_cells = cells.length)
    (hsorted : (cells.map (·.key)).Pairwise (· < ·))
    (hlen : cells.length < 11)
    (habsent : k ∉ cells.map (·.key))
    (hpage : t.root.page_num = 0)
    (hcoh : t.pager.get_page 0 = t.root)
    (hroot : t.root.is_root = true)
    (hid : row.id = k) :
    ∃ c t' c',
      t.find k = some (.error c) ∧
      t.insert c row = some (t', true) ∧
      t'.find k = some (.ok c') ∧
      c'.page_num = c.page_num ∧
      t'.get c'.page_num c'.cell_num = some row := by
  rcases hbs : binarySearchKeys (cells.map (·.key)) k with j | m
  swap
  · exfalso
    obtain ⟨hmlen, hmk⟩ := binarySearchKeys_ok hsorted hbs
    exact habsent (List.mem_iff_getElem.mpr
      ⟨m, hmlen, by rw [← List.getD_eq_getElem _ 0 hmlen]; exact hmk⟩)
  obtain ⟨hjlen, hbelow, habove⟩ := binarySearchKeys_miss hsorted hbs
  have hjcells : j ≤ cells.length := by simpa using hjlen
  have hn12 : ¬ 12 ≤ t.root.num_cells := by omega
  have hrootfind : t.root.find k = some (.error (0, j)) := by
    simp only [Node.find, hleaf]
    rw [if_neg hn12, hbs, hpage]
  have hfind : t.find k = some (.error (Cursor.new 0 j
      ((t.pager.num_pages == 0) && decide (12 ≤ j)))) := by
    simp only [BTree.find, hrootfind]
  have hins : t.root.insert j row.id row =
      some ({ t.root with
        node_type := .Leaf (cells.insertIdx j ⟨k, row⟩),
        num_cells := t.root.num_cells + 1 }, true) := by
    simp only [Node.insert, hleaf]
    rw [if_neg (by omega), if_pos hjcells, hid]
  have hlen0 : 0 < t.pager.pages.length := by
    by_contra hl0
    have hdef : t.pager.get_page 0 =
        { Node.leaf Row with page_num := 0 } :=
      List.getD_eq_default _ _ (by omega)
    rw [hcoh] at hdef
    have := congrArg Node.is_root hdef
    rw [hroot] at this
    cases this
  refine ⟨Cursor.new 0 j ((t.pager.num_pages == 0) && decide (12 ≤ j)),
    { root := { t.root with
        node_type := .Leaf (cells.insertIdx j ⟨k, row⟩),
        num_cells := t.root.num_cells + 1 },
      pager := t.pager.commit_page { t.root with
        node_type := .Leaf (cells.insertIdx j ⟨k, row⟩),
        num_cells := t.root.num_cells + 1 } },
    Cursor.new 0 j
      (((t.pager.commit_page { t.root with
          node_type := .Leaf (cells.insertIdx j ⟨k, row⟩),
          num_cells := t.root.num_cells + 1 }).num_pages == 0) &&
        decide (12 ≤ j)),
    hfind, ?_, ?_, ?_, ?_⟩
  · simp only [BTree.insert, Cursor.new]
    rw [hcoh, if_neg hn12, hins]
    simp only [hroot, if_true]
  · have hkeys' : (cells.insertIdx j (⟨k, row⟩ : KeyValuePair Row)).map (·.key) =
        (cells.map (·.key)).insertIdx j k := map_insertIdx _ cells j ⟨k, row⟩
    have hsorted' : ((cells.map (·.key)).insertIdx j k).Pairwise (· < ·) :=
      pairwise_lt_insertIdx hsorted hjlen hbelow habove
    have hlenkeys' : ((cells.map (·.key)).insertIdx j k).length =
        (cells.map (·.key)).length + 1 :=
      List.length_insertIdx j (cells.map (·.key)) hjlen
    have hfound : binarySearchKeys
        ((cells.insertIdx j (⟨k, row⟩ : KeyValuePair Row)).map (·.key)) k =
        .ok j := by
      rw [hkeys']
      refine binarySearchKeys_found hsorted' (by rw [hlenkeys']; omega) ?_
      rw [List.getD_eq_getElem _ 0 (by rw [hlenkeys']; omega)]
      exact List.getElem_insertIdx_self (cells.map (·.key)) k j hjlen
    simp only [BTree.find, Node.find]
    rw [if_neg (by simp; omega), hfound, hpage]
  · rfl
  · have hcommit : (t.pager.commit_page { t.root with
        node_type := .Leaf (cells.insertIdx j ⟨k, row⟩),
        num_cells := t.root.num_cells + 1 }).get_page 0 =
        { t.root with
          node_type := .Leaf (cells.insertIdx j ⟨k, row⟩),
          num_cells := t.root.num_cells + 1 } := by
      simp only [Pager.commit_page, hpage]
      rw [if_pos hlen0]
      simp only [Pager.get_page]
      rw [List.getD_eq_getElem _ _ (by simpa using hlen0)]
      exact List.getElem_set_self (by simpa using hlen0)
    simp only [BTree.get, Cursor.new, hcommit, Node.get]
    rw [getElem?_insertIdx_self cells j ⟨k, row⟩ hjcells]
    rfl

/-- The two-cell root leaf used for the C4 witness: keys 1 and 3 at page 0. -/
def twoCellRoot : Node Row :=
  { is_root := true, node_type := .Leaf [⟨1, ⟨1, 0⟩⟩, ⟨3, ⟨3, 0⟩⟩],
    parent_offset := none, num_cells := 2, page_num := 0 }

/-- A tree whose single page holds `twoCellRoot`. -/
def tree2 : BTree := { root := twoCellRoot, pager := { pages := [twoCellRoot] } }

/-- C4 witness: the amended round trip evaluated on the two-cell tree with the
fresh key 2. -/
theorem c4_round_trip_witness :
    ∃ c t' c',
      tree2.find 2 = some (.error c) ∧
      tree2.insert c ⟨2, 0⟩ = some (t', true) ∧
      t'.find 2 = some (.ok c') ∧
      c'.page_num = c.page_num ∧
      t'.get c'.page_num c'.cell_num = some ⟨2, 0⟩ :=
  c4_round_trip tree2 2 ⟨2, 0⟩ [⟨1, ⟨1, 0⟩⟩, ⟨3, ⟨3, 0⟩⟩] rfl rfl (by decide)
    (by decide) (by decide) rfl rfl rfl rfl

example : binarySearchKeys [2, 4, 6] 999 = .error 3 := by decide

example : binarySearchKeys [2, 4, 6] 4 = .ok 1 := by decide

example : binarySearchKeys [2, 4, 6] 5 = .error 2 := by decide

end SqliteClone
